import Mathlib

/-!
# Verification of `xyz_remove_CO.py`

A shallow embedding of the XYZ-file carbonyl-removal utility, together with
theorems settling the specification claims.

Modelling conventions:
* A file is a list of lines (`List String`), each already stripped of its
  trailing newline, exactly as the source reads them.
* Coordinates are exact rationals (`ℚ`).  The source compares the Euclidean
  distance `sqrt s` against nonnegative thresholds; since `sqrt` is monotone
  and both sides are nonnegative, `lo ≤ sqrt s ∧ sqrt s ≤ hi` holds exactly
  when `lo^2 ≤ s ∧ s ≤ hi^2`, so the embedding compares squared distances
  against squared thresholds.
* Python's `int()` is modelled as an optional sign followed by ASCII digits,
  and `float()` as sign, decimal mantissa and optional exponent.  (Python
  additionally accepts underscores between digits, unicode digits and the
  literals `inf`/`nan`; no claim depends on those, and they are not modelled.)
* File output is modelled at field level by the record `Written`: the
  atom-count line, comment line, one `(element, coordinates)` entry per atom
  with each coordinate rounded to 6 decimal places (the `%12.6f` format), and
  the verbatim trailing lines.
-/

namespace XyzRemoveCO

/-- `CENTER_METALS` from the source: element symbols accepted as the
central metal. -/
def CENTER_METALS : List String := ["Ir", "Rh", "Pd", "Pt", "Ni", "Co", "Fe", "Ru", "Os"]

/-- `CO_BOND_MIN` from the source: minimal C-O bond length (1.00 Å). -/
def CO_BOND_MIN : ℚ := 1

/-- `CO_BOND_MAX` from the source: maximal C-O bond length (1.30 Å). -/
def CO_BOND_MAX : ℚ := 13 / 10

/-- `M_C_MAX` from the source: maximal metal-carbon distance (2.20 Å). -/
def M_C_MAX : ℚ := 11 / 5

/-- A 3D point with exact rational coordinates. -/
abbrev Point := ℚ × ℚ × ℚ

/-- Default point used for out-of-range `getD` accesses (never reached on
indices produced by the code, which are always in range). -/
def pz : Point := (0, 0, 0)

/-- Squared Euclidean distance; the source's `distance` is its square root.
All threshold comparisons in the source are against nonnegative constants,
so they are embedded as comparisons of `dist2` against squared constants. -/
def dist2 (a b : Point) : ℚ :=
  (a.1 - b.1) ^ 2 + (a.2.1 - b.2.1) ^ 2 + (a.2.2 - b.2.2) ^ 2

/-! ## String helpers mirroring Python's `str.strip`, `str.split`, `int`, `float` -/

/-- Strip leading and trailing whitespace from a character list
(Python `str.strip()`). -/
def trimWs (cs : List Char) : List Char :=
  ((cs.dropWhile Char.isWhitespace).reverse.dropWhile Char.isWhitespace).reverse

/-- Accumulator-based whitespace tokenizer: Python `str.split()` with no
arguments (splits on runs of whitespace, no empty tokens). -/
def splitWsAux : List Char → List Char → List (List Char)
  | acc, [] => if acc.isEmpty then [] else [acc.reverse]
  | acc, c :: rest =>
    if c.isWhitespace then
      if acc.isEmpty then splitWsAux [] rest
      else acc.reverse :: splitWsAux [] rest
    else splitWsAux (c :: acc) rest

/-- Tokens of a line, as Python's `line.split()`. -/
def pyTokens (s : String) : List String :=
  (splitWsAux [] s.data).map String.mk

/-- Value of a digit string read in base 10. -/
def natOfDigits (cs : List Char) : ℕ :=
  cs.foldl (fun n c => 10 * n + (c.toNat - 48)) 0

/-- Parse a nonempty all-digit character list. -/
def digitsToNat (cs : List Char) : Option ℕ :=
  if cs ≠ [] ∧ cs.all Char.isDigit then some (natOfDigits cs) else none

/-- Python `int(s)`: optional sign then digits, surrounding whitespace
ignored.  Note that negative integers parse successfully. -/
def parseIntStr (s : String) : Option ℤ :=
  match trimWs s.data with
  | '-' :: rest => (digitsToNat rest).map (fun n => -(n : ℤ))
  | '+' :: rest => (digitsToNat rest).map (fun n => (n : ℤ))
  | cs => (digitsToNat cs).map (fun n => (n : ℤ))

/-- Split a character list at the first exponent marker `e`/`E`. -/
def splitAtExp (cs : List Char) : List Char × Option (List Char) :=
  match cs.dropWhile (fun c => decide (c ≠ 'e' ∧ c ≠ 'E')) with
  | [] => (cs, none)
  | _ :: rest => (cs.takeWhile (fun c => decide (c ≠ 'e' ∧ c ≠ 'E')), some rest)

/-- Parse an unsigned decimal mantissa: `digits`, `digits.digits`,
`.digits` or `digits.` (at least one digit overall). -/
def parseMantissa (cs : List Char) : Option ℚ :=
  match cs.dropWhile (fun c => decide (c ≠ '.')) with
  | [] => (digitsToNat cs).map (fun n => (n : ℚ))
  | _ :: fp =>
    let ip := cs.takeWhile (fun c => decide (c ≠ '.'))
    if ip.all Char.isDigit ∧ fp.all Char.isDigit ∧ (ip ≠ [] ∨ fp ≠ []) then
      some ((natOfDigits ip : ℚ) + (natOfDigits fp : ℚ) / (10 : ℚ) ^ fp.length)
    else none

/-- Python `float(s)` on ordinary decimal literals: optional sign, mantissa,
optional exponent part. -/
def parseFloatStr (s : String) : Option ℚ :=
  let cs := trimWs s.data
  let signed : ℚ × List Char :=
    match cs with
    | '-' :: rest => (-1, rest)
    | '+' :: rest => (1, rest)
    | _ => (1, cs)
  match splitAtExp signed.2 with
  | (mant, none) => (parseMantissa mant).map (fun m => signed.1 * m)
  | (mant, some ecs) =>
    let esigned : ℤ × List Char :=
      match ecs with
      | '-' :: rest => (-1, rest)
      | '+' :: rest => (1, rest)
      | _ => (1, ecs)
    match parseMantissa mant, digitsToNat esigned.2 with
    | some m, some e => some (signed.1 * m * (10 : ℚ) ^ (esigned.1 * (e : ℤ)))
    | _, _ => none

/-! ## Python list slicing -/

/-- Normalize a Python slice endpoint against a list of length `L`:
negative indices count from the end, then everything is clamped to `[0, L]`. -/
def pyNorm (L : ℕ) (i : ℤ) : ℕ :=
  if i < 0 then ((L : ℤ) + i).toNat else min i.toNat L

/-- Python `l[a:b]` (step 1). -/
def pySlice {α : Type} (l : List α) (a b : ℤ) : List α :=
  let s := pyNorm l.length a
  let e := pyNorm l.length b
  (l.drop s).take (e - s)

/-! ## Structure Reader (`read_xyz`) -/

/-- A parsed XYZ structure: element labels, coordinates, the comment line and
the verbatim trailing lines. -/
structure Structure where
  elements : List String
  coords : List Point
  comment : String
  extra_lines : List String
deriving DecidableEq

/-- Parse the atom-record lines: blank lines are skipped; a non-blank line
must have at least 4 whitespace tokens whose tokens 2-4 parse as numbers.
Failure (`none`) models the `ValueError` raised by the source. -/
def parseAtomLines : List String → Option (List String × List Point)
  | [] => some ([], [])
  | line :: rest =>
    if trimWs line.data = [] then parseAtomLines rest
    else
      let parts := pyTokens line
      if parts.length < 4 then none
      else
        match parseFloatStr (parts.getD 1 ""), parseFloatStr (parts.getD 2 ""),
            parseFloatStr (parts.getD 3 "") with
        | some x, some y, some z =>
          match parseAtomLines rest with
          | none => none
          | some (es, cs) => some (parts.getD 0 "" :: es, (x, y, z) :: cs)
        | _, _, _ => none

/-- `read_xyz` from the source, on the list of lines of the file: requires at
least 2 lines, parses line 0 (stripped) with `int()`, takes line 1 as the
comment, slices `lines[2 : 2+n]` as atom records (Python slice semantics,
so a negative count yields a short or empty slice without error), fails if
fewer than `n` lines were sliced, parses the records, and keeps
`lines[2+n :]` verbatim as `extra_lines`. -/
def read_xyz (lines : List String) : Option Structure :=
  if lines.length < 2 then none
  else
    match parseIntStr (lines.getD 0 "") with
    | none => none
    | some n_atoms =>
      let atom_lines := pySlice lines 2 (2 + n_atoms)
      if (atom_lines.length : ℤ) < n_atoms then none
      else
        match parseAtomLines atom_lines with
        | none => none
        | some (es, cs) =>
          some ⟨es, cs, lines.getD 1 "", pySlice lines (2 + n_atoms) (lines.length : ℤ)⟩

/-! ## Writer (`write_xyz`) -/

/-- Round a rational to 6 decimal places, as the `%12.6f` format does to the
value it prints.  (Python rounds the underlying double half-to-even; any
rounding to the nearest multiple of `10⁻⁶` is within `5·10⁻⁷`, which is the
bound the round-trip theorem states.) -/
def round6 (q : ℚ) : ℚ :=
  (round (q * 1000000) : ℚ) / 1000000

/-- The written output file, at field level: atom-count line, comment line,
one `(element, rounded coordinates)` entry per atom, trailing lines. -/
structure Written where
  n : ℕ
  comment : String
  atoms : List (String × Point)
  extras : List String
deriving DecidableEq

/-- `write_xyz` from the source: writes `len(elements)`, the comment, each
atom's element and 6-decimal coordinates, then the extra lines. -/
def write_xyz (elements : List String) (coords : List Point) (comment : String)
    (extra_lines : List String) : Written :=
  { n := elements.length
    comment := comment
    atoms := (elements.zip coords).map
      (fun p => (p.1, (round6 p.2.1, round6 p.2.2.1, round6 p.2.2.2)))
    extras := extra_lines }

/-! ## Metal Locator and Ligand Detector -/

/-- `find_metal_center` from the source: index of the first element in
`CENTER_METALS`, `none` if absent.  (`coords` is passed but unused, as in
the source.) -/
def find_metal_center (elements : List String) (coords : List Point) : Option ℕ :=
  (elements.enum.find? (fun p => decide (p.2 ∈ CENTER_METALS))).map Prod.fst

/-- The loop body of `find_CO_pairs` for one candidate `(i, j)`: emit the
pair when the C-O squared distance is within the squared bond window and,
if a metal index is given, the C-metal squared distance is at most
`M_C_MAX ^ 2`.  Without a metal index the C-O pair is accepted
unconditionally. -/
def accept_pair (coords : List Point) (metal_index : Option ℕ) (i j : ℕ) :
    Option (ℕ × ℕ) :=
  if CO_BOND_MIN ^ 2 ≤ dist2 (coords.getD i pz) (coords.getD j pz) ∧
      dist2 (coords.getD i pz) (coords.getD j pz) ≤ CO_BOND_MAX ^ 2 then
    match metal_index with
    | some mi =>
      if dist2 (coords.getD i pz) (coords.getD mi pz) ≤ M_C_MAX ^ 2 then
        some (i, j)
      else none
    | none => some (i, j)
  else none

/-- The raw candidate scan of `find_CO_pairs`: outer loop over all atoms
keeping carbons, inner loop over all atoms keeping oxygens, collecting every
accepted pair in discovery order. -/
def co_scan (elements : List String) (coords : List Point) (metal_index : Option ℕ) :
    List (ℕ × ℕ) :=
  (elements.enum.filter (fun p => p.2 == "C")).flatMap (fun ci =>
    (elements.enum.filter (fun p => p.2 == "O")).filterMap (fun oj =>
      accept_pair coords metal_index ci.1 oj.1))

/-- `tuple(sorted((c, o)))` from the source's de-duplication step. -/
def sortKey (p : ℕ × ℕ) : ℕ × ℕ :=
  if p.1 ≤ p.2 then p else (p.2, p.1)

/-- The de-duplication loop of `find_CO_pairs`: keep a pair unless its
sorted key was already seen. -/
def dedup_pairs : List (ℕ × ℕ) → List (ℕ × ℕ) → List (ℕ × ℕ)
  | _, [] => []
  | seen, p :: rest =>
    if sortKey p ∈ seen then dedup_pairs seen rest
    else p :: dedup_pairs (sortKey p :: seen) rest

/-- `find_CO_pairs` from the source: the raw scan followed by
de-duplication on sorted index keys. -/
def find_CO_pairs (elements : List String) (coords : List Point)
    (metal_index : Option ℕ) : List (ℕ × ℕ) :=
  dedup_pairs [] (co_scan elements coords metal_index)

/-! ## Ligand Remover / per-file pipeline (`process_xyz_file`) -/

/-- The `delete_indices` set of `process_xyz_file`: both indices of every
selected pair. -/
def delete_indices (pairs : List (ℕ × ℕ)) : Finset ℕ :=
  pairs.foldl (fun s p => insert p.2 (insert p.1 s)) ∅

/-- Per-file outcome of `process_xyz_file`: the reported status, and for the
completed case the filtered atom lists together with the written file. -/
inductive Outcome where
  | readFailed : Outcome
  | emptyAtoms : Outcome
  | noMetal : Outcome
  | fewPairs : ℕ → Outcome
  | completed : List String → List Point → Written → Outcome
deriving DecidableEq

/-- The surviving `(index, (element, coordinate))` entries of the filtering
loop in `process_xyz_file`, given the detected pairs. -/
def survivors (st : Structure) (pairs : List (ℕ × ℕ)) :
    List (ℕ × (String × Point)) :=
  (st.elements.zip st.coords).enum.filter
    (fun p => decide (p.1 ∉ delete_indices (pairs.take 2)))

/-- `process_xyz_file` from the source: read; skip when the read fails, when
no atoms were parsed, or when no metal is found; warn (and write nothing)
when fewer than 2 CO pairs are detected; otherwise delete the atoms of the
first two pairs and write the filtered structure. -/
def process_xyz_file (lines : List String) : Outcome :=
  match read_xyz lines with
  | none => .readFailed
  | some st =>
    if st.elements.length = 0 then .emptyAtoms
    else
      match find_metal_center st.elements st.coords with
      | none => .noMetal
      | some metal_index =>
        let co_pairs := find_CO_pairs st.elements st.coords (some metal_index)
        if co_pairs.length < 2 then .fewPairs co_pairs.length
        else
          let kept := survivors st co_pairs
          let new_elements := kept.map (fun p => p.2.1)
          let new_coords := kept.map (fun p => p.2.2)
          .completed new_elements new_coords
            (write_xyz new_elements new_coords st.comment st.extra_lines)

/-- A non-blank atom line the parser rejects: fewer than 4 tokens, or one of
the three coordinate tokens fails to parse as a number. -/
def badAtomLine (line : String) : Bool :=
  decide (trimWs line.data ≠ []) &&
    (decide ((pyTokens line).length < 4) ||
     (parseFloatStr ((pyTokens line).getD 1 "")).isNone ||
     (parseFloatStr ((pyTokens line).getD 2 "")).isNone ||
     (parseFloatStr ((pyTokens line).getD 3 "")).isNone)

/-- Elements of the C3 witness: a metal, a carbon, and an oxygen at C-O
distance exactly 1.00 (the inclusive lower boundary). -/
def c3Elems : List String := ["Ir", "C", "O"]

/-- Coordinates of the C3 witness. -/
def c3Coords : List Point := [(2, 0, 0), (0, 0, 0), (1, 0, 0)]

/-- Lines of the running example file: an iridium center with two carbonyl
ligands at C-O distance 1.15 and M-C distance 1.9. -/
def exLines : List String :=
  ["5", "c", "Ir 0.0 0.0 0.0", "C 1.9 0.0 0.0", "O 3.05 0.0 0.0",
    "C 0.0 1.9 0.0", "O 0.0 3.05 0.0"]

/-- Element labels of the running example. -/
def exElems : List String := ["Ir", "C", "O", "C", "O"]

/-- Coordinates of the running example. -/
def exCoords : List Point :=
  [(0, 0, 0), (19/10, 0, 0), (61/20, 0, 0), (0, 19/10, 0), (0, 61/20, 0)]

/-- The parsed structure of the running example. -/
def exSt : Structure := ⟨exElems, exCoords, "c", []⟩

/-- Lines of the round-trip witness file. -/
def c7Lines : List String := ["1", "hello", "C 0.125 0.0 -2.5", "tail"]

/-- The parsed structure of the round-trip witness file. -/
def c7St : Structure := ⟨["C"], [(1/8, 0, -5/2)], "hello", ["tail"]⟩

/-! ## Basic parsing lemmas -/

/-- Successful atom-line parsing yields as many coordinates as elements. -/
theorem parseAtomLines_lengths : ∀ {ls es : List String} {cs : List Point},
    parseAtomLines ls = some (es, cs) → es.length = cs.length := by
  intro ls
  induction ls with
  | nil =>
    intro es cs h
    simp only [parseAtomLines, Option.some.injEq, Prod.mk.injEq] at h
    obtain ⟨he, hc⟩ := h
    simp [← he, ← hc]
  | cons line rest ih =>
    intro es cs h
    simp only [parseAtomLines] at h
    split at h
    · exact ih h
    · split at h
      · exact absurd h (by simp)
      · split at h
        · split at h
          · exact absurd h (by simp)
          · rename_i es' cs' heq
            simp only [Option.some.injEq, Prod.mk.injEq] at h
            obtain ⟨he, hc⟩ := h
            subst he hc
            simpa using ih heq
        · exact absurd h (by simp)

/-- A successfully parsed structure has as many coordinates as elements. -/
theorem read_xyz_lengths {lines : List String} {st : Structure}
    (h : read_xyz lines = some st) : st.coords.length = st.elements.length := by
  simp only [read_xyz] at h
  split at h
  · exact absurd h (by simp)
  · split at h
    · exact absurd h (by simp)
    · split at h
      · exact absurd h (by simp)
      · split at h
        · exact absurd h (by simp)
        · rename_i heq
          simp only [Option.some.injEq] at h
          subst h
          exact (parseAtomLines_lengths heq).symm

/-- Atom-line parsing fails exactly when some line of the block is a bad
(non-blank, malformed) atom record, wherever it occurs. -/
theorem parseAtomLines_eq_none : ∀ {ls : List String},
    parseAtomLines ls = none ↔ ∃ l ∈ ls, badAtomLine l = true := by
  intro ls
  induction ls with
  | nil => simp [parseAtomLines]
  | cons line rest ih =>
    by_cases hb : trimWs line.data = []
    · have hbad : badAtomLine line = false := by
        simp [badAtomLine, hb]
      simp [parseAtomLines, hb, hbad, ih]
    · by_cases h4 : (pyTokens line).length < 4
      · have hbad : badAtomLine line = true := by
          simp [badAtomLine, hb, h4, -List.getD_eq_getElem?_getD]
        simp [parseAtomLines, hb, h4, hbad, -List.getD_eq_getElem?_getD]
      · cases hx : parseFloatStr ((pyTokens line).getD 1 "") with
        | none =>
          have hbad : badAtomLine line = true := by
            simp [badAtomLine, hb, hx, -List.getD_eq_getElem?_getD]
          simp [parseAtomLines, hb, h4, hx, hbad, -List.getD_eq_getElem?_getD]
        | some x =>
          cases hy : parseFloatStr ((pyTokens line).getD 2 "") with
          | none =>
            have hbad : badAtomLine line = true := by
              simp [badAtomLine, hb, hy, -List.getD_eq_getElem?_getD]
            simp [parseAtomLines, hb, h4, hx, hy, hbad, -List.getD_eq_getElem?_getD]
          | some y =>
            cases hz : parseFloatStr ((pyTokens line).getD 3 "") with
            | none =>
              have hbad : badAtomLine line = true := by
                simp [badAtomLine, hb, hz, -List.getD_eq_getElem?_getD]
              simp [parseAtomLines, hb, h4, hx, hy, hz, hbad, -List.getD_eq_getElem?_getD]
            | some z =>
              have hbad : badAtomLine line = false := by
                simp [badAtomLine, hb, h4, hx, hy, hz, -List.getD_eq_getElem?_getD]
              cases hr : parseAtomLines rest with
              | none =>
                simp [parseAtomLines, hb, h4, hx, hy, hz, hr, hbad, ih.mp hr,
                  -List.getD_eq_getElem?_getD]
              | some p =>
                have hns : ¬ parseAtomLines rest = none := by simp [hr]
                simp only [parseAtomLines, if_neg hb, if_neg h4, hx, hy, hz, hr]
                simp only [List.mem_cons, exists_eq_or_imp, hbad, false_or, ← ih, hr]
                simp

/-- C2 counterexample: the header line `-1` is not a non-negative integer,
so the claim requires the Structure Reader to fail on the file
`["-1", "c"]`; but Python's `int()` accepts negative integers and the
negative slice then yields an empty atom block, so `read_xyz` succeeds
(returning zero atoms, with the comment line also captured among the
trailing lines). -/
theorem C2_counterexample :
    parseIntStr "-1" = some (-1) ∧ (-1 : ℤ) < 0 ∧
      (read_xyz ["-1", "c"]).isSome = true := by
  refine ⟨by decide, by decide, by decide⟩

/-- C2 (amended): the Structure Reader fails exactly when the file has fewer
than 2 lines, or its first line (stripped) does not parse as an integer
(negative integers are accepted), or fewer than the declared `n` lines
follow the header, or some non-blank line of the atom block has fewer than
4 tokens or a coordinate token that does not parse as a number. -/
theorem C2_reader_failure (lines : List String) :
    read_xyz lines = none ↔
      lines.length < 2 ∨
      parseIntStr (lines.getD 0 "") = none ∨
      ∃ n, parseIntStr (lines.getD 0 "") = some n ∧
        (((pySlice lines 2 (2 + n)).length : ℤ) < n ∨
         ∃ l ∈ pySlice lines 2 (2 + n), badAtomLine l = true) := by
  simp only [read_xyz]
  by_cases h2 : lines.length < 2
  · simp [h2]
  · rw [if_neg h2]
    cases hp : parseIntStr (lines.getD 0 "") with
    | none => simp [h2, hp]
    | some n =>
      by_cases hlt : ((pySlice lines 2 (2 + n)).length : ℤ) < n
      · simp [h2, hp, hlt]
      · cases hr : parseAtomLines (pySlice lines 2 (2 + n)) with
        | none =>
          simp [h2, hp, hlt, hr, parseAtomLines_eq_none.mp hr]
        | some p =>
          obtain ⟨es, cs⟩ := p
          have hns : ¬ ∃ l ∈ pySlice lines 2 (2 + n), badAtomLine l = true := by
            rw [← parseAtomLines_eq_none, hr]
            simp
          simp [h2, hp, hlt, hr, hns]

/-! ## Ligand Detector lemmas -/

/-- Characterization of the loop body: a pair is emitted exactly when both
distance tests pass, and the emitted pair is `(i, j)` itself. -/
theorem accept_pair_eq_some {coords : List Point} {metal : Option ℕ}
    {i j : ℕ} {x : ℕ × ℕ} :
    accept_pair coords metal i j = some x ↔
      (x = (i, j) ∧
       CO_BOND_MIN ^ 2 ≤ dist2 (coords.getD i pz) (coords.getD j pz) ∧
       dist2 (coords.getD i pz) (coords.getD j pz) ≤ CO_BOND_MAX ^ 2 ∧
       ∀ mi ∈ metal, dist2 (coords.getD i pz) (coords.getD mi pz) ≤ M_C_MAX ^ 2) := by
  cases metal with
  | none =>
    simp only [accept_pair]
    split_ifs with hw
    · simp [hw, eq_comm, -List.getD_eq_getElem?_getD]
    · simp only [not_and_or, not_le] at hw
      constructor
      · intro h
        exact absurd h (by simp)
      · rintro ⟨-, h1, h2, -⟩
        rcases hw with hw | hw
        · exact absurd h1 (not_le.mpr hw)
        · exact absurd h2 (not_le.mpr hw)
  | some mi =>
    simp only [accept_pair]
    split_ifs with hw hm
    · simp [hw, hm, eq_comm, -List.getD_eq_getElem?_getD]
    · simp only [Option.mem_def, Option.some.injEq, forall_eq']
      constructor
      · intro h
        exact absurd h (by simp)
      · rintro ⟨-, -, -, h3⟩
        exact absurd h3 hm
    · simp only [not_and_or, not_le] at hw
      constructor
      · intro h
        exact absurd h (by simp)
      · rintro ⟨-, h1, h2, -⟩
        rcases hw with hw | hw
        · exact absurd h1 (not_le.mpr hw)
        · exact absurd h2 (not_le.mpr hw)

/-- Bridge: in-range indices against `getD` and `getElem?`. -/
theorem getElem?_eq_some_getD {α : Type} {l : List α} {i : ℕ} (h : i < l.length) (d : α) :
    l[i]? = some (l.getD i d) := by
  simp [List.getElem?_eq_getElem h, List.getD_eq_getElem?_getD]

/-- Bridge: a successful `getElem?` lookup gives an in-range index and the
`getD` value. -/
theorem getD_of_getElem?_eq_some {α : Type} {l : List α} {i : ℕ} {v : α} (d : α)
    (h : l[i]? = some v) : i < l.length ∧ l.getD i d = v := by
  have h1 : i < l.length := by
    rcases List.getElem?_eq_some.mp h with ⟨h1, _⟩
    exact h1
  exact ⟨h1, by simp [List.getD_eq_getElem?_getD, h]⟩

/-- Membership in the raw scan: exactly the in-range C/O index pairs that
pass the distance tests. -/
theorem mem_co_scan {elements : List String} {coords : List Point}
    {metal : Option ℕ} {i j : ℕ} :
    (i, j) ∈ co_scan elements coords metal ↔
      (i < elements.length ∧ elements.getD i "" = "C" ∧
       j < elements.length ∧ elements.getD j "" = "O" ∧
       CO_BOND_MIN ^ 2 ≤ dist2 (coords.getD i pz) (coords.getD j pz) ∧
       dist2 (coords.getD i pz) (coords.getD j pz) ≤ CO_BOND_MAX ^ 2 ∧
       ∀ mi ∈ metal, dist2 (coords.getD i pz) (coords.getD mi pz) ≤ M_C_MAX ^ 2) := by
  constructor
  · intro h
    simp only [co_scan, List.mem_flatMap, List.mem_filterMap, List.mem_filter] at h
    obtain ⟨ci, ⟨hciMem, hciC⟩, oj, ⟨hojMem, hojO⟩, hf⟩ := h
    obtain ⟨ci1, ci2⟩ := ci
    obtain ⟨oj1, oj2⟩ := oj
    rw [List.mk_mem_enum_iff_getElem?] at hciMem hojMem
    rw [accept_pair_eq_some] at hf
    obtain ⟨hx, hw1, hw2, hmc⟩ := hf
    obtain ⟨hi, hj⟩ := Prod.mk.injEq .. ▸ hx.symm
    subst hi hj
    simp only [beq_iff_eq] at hciC hojO
    subst hciC hojO
    obtain ⟨hilt, hiD⟩ := getD_of_getElem?_eq_some "" hciMem
    obtain ⟨hjlt, hjD⟩ := getD_of_getElem?_eq_some "" hojMem
    exact ⟨hilt, hiD, hjlt, hjD, hw1, hw2, hmc⟩
  · rintro ⟨hi, hiC, hj, hjO, hw1, hw2, hmc⟩
    simp only [co_scan, List.mem_flatMap, List.mem_filterMap, List.mem_filter]
    refine ⟨(i, "C"), ⟨?_, by simp⟩, (j, "O"), ⟨⟨?_, by simp⟩, ?_⟩⟩
    · rw [List.mk_mem_enum_iff_getElem?]
      rw [getElem?_eq_some_getD hi "", hiC]
    · rw [List.mk_mem_enum_iff_getElem?]
      rw [getElem?_eq_some_getD hj "", hjO]
    · rw [accept_pair_eq_some]
      exact ⟨rfl, hw1, hw2, hmc⟩

/-- Indices in an `enumFrom` list are strictly increasing. -/
theorem enumFrom_pairwise_fst_lt {α : Type} (n : ℕ) (l : List α) :
    (l.enumFrom n).Pairwise (fun p q => p.1 < q.1) := by
  induction l generalizing n with
  | nil => simp
  | cons a t ih =>
    rw [List.enumFrom_cons]
    refine List.Pairwise.cons ?_ (ih (n + 1))
    intro q hq
    have := List.le_fst_of_mem_enumFrom hq
    omega

/-- Indices in an `enum` list are strictly increasing. -/
theorem enum_pairwise_fst_lt {α : Type} (l : List α) :
    l.enum.Pairwise (fun p q => p.1 < q.1) :=
  enumFrom_pairwise_fst_lt 0 l

/-- The raw scan is strictly sorted in the lexicographic discovery order:
outer carbon index ascending, inner oxygen index ascending. -/
theorem co_scan_pairwise_lex (elements : List String) (coords : List Point)
    (metal : Option ℕ) :
    (co_scan elements coords metal).Pairwise
      (fun p q => p.1 < q.1 ∨ (p.1 = q.1 ∧ p.2 < q.2)) := by
  rw [co_scan, List.pairwise_flatMap]
  constructor
  · intro ci _
    rw [List.pairwise_filterMap]
    refine List.Pairwise.imp ?_ ((enum_pairwise_fst_lt elements).filter _)
    intro oj oj' hlt b hb b' hb'
    rw [Option.mem_def, accept_pair_eq_some] at hb hb'
    rw [hb.1, hb'.1]
    exact Or.inr ⟨rfl, hlt⟩
  · refine List.Pairwise.imp ?_ ((enum_pairwise_fst_lt elements).filter _)
    intro ci ci' hlt x hx y hy
    rw [List.mem_filterMap] at hx hy
    obtain ⟨oj, -, hox⟩ := hx
    obtain ⟨oj', -, hoy⟩ := hy
    rw [accept_pair_eq_some] at hox hoy
    rw [hox.1, hoy.1]
    exact Or.inl hlt

/-- Every pair produced by the raw scan is a well-formed C/O index pair. -/
theorem co_scan_labels {elements : List String} {coords : List Point}
    {metal : Option ℕ} {p : ℕ × ℕ} (h : p ∈ co_scan elements coords metal) :
    p.1 < elements.length ∧ p.2 < elements.length ∧
      elements.getD p.1 "" = "C" ∧ elements.getD p.2 "" = "O" := by
  obtain ⟨i, j⟩ := p
  have := mem_co_scan.mp h
  exact ⟨this.1, this.2.2.1, this.2.1, this.2.2.2.1⟩

/-- Equal sorted keys mean equal or swapped pairs. -/
theorem eq_or_swap_of_sortKey_eq {p q : ℕ × ℕ} (h : sortKey p = sortKey q) :
    p = q ∨ p = (q.2, q.1) := by
  obtain ⟨a, b⟩ := p
  obtain ⟨c, d⟩ := q
  simp only [sortKey] at h
  split_ifs at h <;> simp_all [Prod.ext_iff]

/-- A two-element index set determines the sorted key. -/
theorem sortKey_eq_of_finset_eq {a b c d : ℕ} (h : ({a, b} : Finset ℕ) = {c, d}) :
    sortKey (a, b) = sortKey (c, d) := by
  have ha : a = c ∨ a = d := by
    have := Finset.ext_iff.mp h a
    simp only [Finset.mem_insert, Finset.mem_singleton, true_or, true_iff] at this
    tauto
  have hb : b = c ∨ b = d := by
    have := Finset.ext_iff.mp h b
    simp only [Finset.mem_insert, Finset.mem_singleton, or_true, true_iff] at this
    tauto
  have hc : c = a ∨ c = b := by
    have := Finset.ext_iff.mp h c
    simp only [Finset.mem_insert, Finset.mem_singleton, true_or, iff_true] at this
    tauto
  have hd : d = a ∨ d = b := by
    have := Finset.ext_iff.mp h d
    simp only [Finset.mem_insert, Finset.mem_singleton, or_true, iff_true] at this
    tauto
  simp only [sortKey]
  split_ifs <;> simp only [Prod.mk.injEq] <;> omega

/-- Distinct pairs of the raw scan have distinct sorted keys (a swapped
duplicate would need an atom labelled both `"C"` and `"O"`). -/
theorem co_scan_pairwise_keys (elements : List String) (coords : List Point)
    (metal : Option ℕ) :
    (co_scan elements coords metal).Pairwise
      (fun p q => sortKey p ≠ sortKey q) := by
  refine List.Pairwise.imp_of_mem ?_ (co_scan_pairwise_lex elements coords metal)
  intro p q hp hq hlex hkey
  rcases eq_or_swap_of_sortKey_eq hkey with heq | hswap
  · subst heq
    rcases hlex with h | ⟨-, h⟩ <;> omega
  · have hpl := co_scan_labels hp
    have hql := co_scan_labels hq
    have : elements.getD q.2 "" = "C" := by rw [← hpl.2.2.1, hswap]
    rw [hql.2.2.2] at this
    exact absurd this (by decide)

/-- The de-duplication pass keeps a subsequence of its input. -/
theorem dedup_pairs_sublist : ∀ (seen l : List (ℕ × ℕ)),
    List.Sublist (dedup_pairs seen l) l := by
  intro seen l
  induction l generalizing seen with
  | nil => simp [dedup_pairs]
  | cons p rest ih =>
    rw [dedup_pairs]
    split_ifs
    · exact (ih seen).cons p
    · exact (ih (sortKey p :: seen)).cons₂ p

/-- On a list whose sorted keys are fresh and pairwise distinct, the
de-duplication pass is the identity. -/
theorem dedup_pairs_eq_self : ∀ {seen l : List (ℕ × ℕ)},
    (∀ p ∈ l, sortKey p ∉ seen) →
    l.Pairwise (fun p q => sortKey p ≠ sortKey q) →
    dedup_pairs seen l = l := by
  intro seen l
  induction l generalizing seen with
  | nil => intro _ _; rfl
  | cons p rest ih =>
    intro hfresh hpw
    rw [dedup_pairs, if_neg (hfresh p (List.mem_cons_self p rest))]
    rw [List.pairwise_cons] at hpw
    congr 1
    refine ih ?_ hpw.2
    intro q hq
    simp only [List.mem_cons, not_or]
    exact ⟨fun he => hpw.1 q hq he.symm, hfresh q (List.mem_cons_of_mem p hq)⟩

/-- `find_CO_pairs` returns exactly the raw scan: the defensive
de-duplication never fires. -/
theorem find_CO_pairs_eq_co_scan (elements : List String) (coords : List Point)
    (metal : Option ℕ) :
    find_CO_pairs elements coords metal = co_scan elements coords metal :=
  dedup_pairs_eq_self (by simp) (co_scan_pairwise_keys elements coords metal)

/-! ## Claims about the Ligand Detector -/

/-- C3: the Ligand Detector accepts a (C, O) pair if and only if the C-O
distance lies in the inclusive range [1.00, 1.30] and, when a metal index is
given, the carbon-to-metal distance is at most 2.20 (stated on squared
distances, which is equivalent for the nonnegative thresholds). -/
theorem C3_pair_acceptance (elements : List String) (coords : List Point)
    (metal : Option ℕ) (i j : ℕ)
    (hi : i < elements.length) (hj : j < elements.length)
    (hiC : elements.getD i "" = "C") (hjO : elements.getD j "" = "O") :
    (i, j) ∈ find_CO_pairs elements coords metal ↔
      (CO_BOND_MIN ^ 2 ≤ dist2 (coords.getD i pz) (coords.getD j pz) ∧
       dist2 (coords.getD i pz) (coords.getD j pz) ≤ CO_BOND_MAX ^ 2 ∧
       ∀ mi ∈ metal, dist2 (coords.getD i pz) (coords.getD mi pz) ≤ M_C_MAX ^ 2) := by
  rw [find_CO_pairs_eq_co_scan, mem_co_scan]
  constructor
  · rintro ⟨-, -, -, -, h1, h2, h3⟩
    exact ⟨h1, h2, h3⟩
  · rintro ⟨h1, h2, h3⟩
    exact ⟨hi, hiC, hj, hjO, h1, h2, h3⟩

/-- C3 witness: instantiating the acceptance characterization at the
boundary configuration (C-O distance exactly 1.00, C-metal distance 2.00). -/
theorem C3_pair_acceptance_witness :
    (1, 2) ∈ find_CO_pairs c3Elems c3Coords (some 0) ↔
      (CO_BOND_MIN ^ 2 ≤ dist2 (c3Coords.getD 1 pz) (c3Coords.getD 2 pz) ∧
       dist2 (c3Coords.getD 1 pz) (c3Coords.getD 2 pz) ≤ CO_BOND_MAX ^ 2 ∧
       ∀ mi ∈ (some 0 : Option ℕ),
         dist2 (c3Coords.getD 1 pz) (c3Coords.getD mi pz) ≤ M_C_MAX ^ 2) :=
  C3_pair_acceptance c3Elems c3Coords (some 0) 1 2 (by decide) (by decide)
    (by decide) (by decide)

/-- C6: the Ligand Detector returns its pairs in scan order — the
de-duplication pass is the identity, so the result is exactly the raw scan,
and that scan is strictly sorted lexicographically (outer carbon index
ascending, inner oxygen index ascending). -/
theorem C6_scan_order (elements : List String) (coords : List Point)
    (metal : Option ℕ) :
    find_CO_pairs elements coords metal = co_scan elements coords metal ∧
    (find_CO_pairs elements coords metal).Pairwise
      (fun p q => p.1 < q.1 ∨ (p.1 = q.1 ∧ p.2 < q.2)) := by
  refine ⟨find_CO_pairs_eq_co_scan elements coords metal, ?_⟩
  rw [find_CO_pairs_eq_co_scan]
  exact co_scan_pairwise_lex elements coords metal

/-- C9: every returned pair is well-formed — both indices are in range, the
first is labelled `"C"`, the second `"O"` (hence distinct), and no two
returned pairs have the same unordered index set. -/
theorem C9_pair_wellformed (elements : List String) (coords : List Point)
    (metal : Option ℕ) :
    (∀ p ∈ find_CO_pairs elements coords metal,
        p.1 < elements.length ∧ p.2 < elements.length ∧
        elements.getD p.1 "" = "C" ∧ elements.getD p.2 "" = "O" ∧ p.1 ≠ p.2) ∧
    (find_CO_pairs elements coords metal).Pairwise
      (fun p q => ({p.1, p.2} : Finset ℕ) ≠ {q.1, q.2}) := by
  rw [find_CO_pairs_eq_co_scan]
  constructor
  · intro p hp
    have hl := co_scan_labels hp
    refine ⟨hl.1, hl.2.1, hl.2.2.1, hl.2.2.2, ?_⟩
    intro he
    have : ("C" : String) = "O" := by rw [← hl.2.2.1, he, hl.2.2.2]
    exact absurd this (by decide)
  · refine List.Pairwise.imp ?_ (co_scan_pairwise_keys elements coords metal)
    intro p q hkey hfin
    exact hkey (sortKey_eq_of_finset_eq hfin)

/-! ## Metal Locator and pipeline lemmas -/

/-- A successful metal lookup returns an in-range index whose label is a
whitelisted metal. -/
theorem find_metal_center_some {elements : List String} {coords : List Point}
    {m : ℕ} (h : find_metal_center elements coords = some m) :
    m < elements.length ∧ elements.getD m "" ∈ CENTER_METALS := by
  simp only [find_metal_center, Option.map_eq_some'] at h
  obtain ⟨p, hp, hm⟩ := h
  obtain ⟨k, a⟩ := p
  have hmem := List.mem_of_find?_eq_some hp
  have hpred := List.find?_some hp
  rw [List.mk_mem_enum_iff_getElem?] at hmem
  simp only [decide_eq_true_eq] at hpred
  subst hm
  obtain ⟨hk, hD⟩ := getD_of_getElem?_eq_some "" hmem
  exact ⟨hk, hD ▸ hpred⟩

/-- Any detected pair forces a nonempty element list. -/
theorem length_pos_of_mem_find_CO_pairs {elements : List String}
    {coords : List Point} {metal : Option ℕ} {p : ℕ × ℕ}
    (hp : p ∈ find_CO_pairs elements coords metal) : 0 < elements.length := by
  rw [find_CO_pairs_eq_co_scan] at hp
  have := co_scan_labels hp
  omega

/-- Membership in the deletion set built by the removal loop. -/
theorem mem_delete_indices {pairs : List (ℕ × ℕ)} {i : ℕ} :
    i ∈ delete_indices pairs ↔ ∃ p ∈ pairs, i = p.1 ∨ i = p.2 := by
  have key : ∀ (l : List (ℕ × ℕ)) (s : Finset ℕ),
      i ∈ l.foldl (fun s p => insert p.2 (insert p.1 s)) s ↔
        i ∈ s ∨ ∃ p ∈ l, i = p.1 ∨ i = p.2 := by
    intro l
    induction l with
    | nil => simp
    | cons q rest ih =>
      intro s
      rw [List.foldl_cons, ih]
      simp only [Finset.mem_insert, List.mem_cons]
      constructor
      · rintro ((h | h | h) | ⟨p, hp, hi⟩)
        · exact Or.inr ⟨q, Or.inl rfl, Or.inr h⟩
        · exact Or.inr ⟨q, Or.inl rfl, Or.inl h⟩
        · exact Or.inl h
        · exact Or.inr ⟨p, Or.inr hp, hi⟩
      · rintro (h | ⟨p, (rfl | hp), hi⟩)
        · exact Or.inl (Or.inr (Or.inr h))
        · rcases hi with h | h
          · exact Or.inl (Or.inr (Or.inl h))
          · exact Or.inl (Or.inl h)
        · exact Or.inr ⟨p, hp, hi⟩
  rw [delete_indices, key]
  simp

/-- Zipping commutes with in-range `getD` lookups. -/
theorem getD_zip {α β : Type} {l1 : List α} {l2 : List β} {i : ℕ} (d1 : α) (d2 : β)
    (h1 : i < l1.length) (h2 : i < l2.length) :
    (l1.zip l2).getD i (d1, d2) = (l1.getD i d1, l2.getD i d2) := by
  have hz : (l1.zip l2)[i]? = some (l1.getD i d1, l2.getD i d2) := by
    rw [List.getElem?_zip_eq_some]
    exact ⟨getElem?_eq_some_getD h1 d1, getElem?_eq_some_getD h2 d2⟩
  simp [List.getD_eq_getElem?_getD, hz]

/-- Filtering an enumeration on indices and dropping the indices is the same
as filtering the index range and looking the values up. -/
theorem filter_enumFrom_map_snd {α : Type} (d : α) (p : ℕ → Bool) :
    ∀ (l : List α) (n : ℕ),
    ((l.enumFrom n).filter (fun q => p q.1)).map Prod.snd
      = ((List.range' n l.length).filter p).map (fun i => l.getD (i - n) d) := by
  intro l
  induction l with
  | nil => intro n; simp
  | cons a t ih =>
    intro n
    rw [List.enumFrom_cons, List.length_cons, List.range'_succ]
    by_cases hp : p n = true
    · rw [show List.filter (fun q : ℕ × α => p q.1) ((n, a) :: List.enumFrom (n + 1) t)
            = (n, a) :: List.filter (fun q : ℕ × α => p q.1) (List.enumFrom (n + 1) t)
          from List.filter_cons_of_pos hp,
        show List.filter p (n :: List.range' (n + 1) t.length)
            = n :: List.filter p (List.range' (n + 1) t.length)
          from List.filter_cons_of_pos hp,
        List.map_cons, List.map_cons, Nat.sub_self, List.getD_cons_zero]
      congr 1
      rw [ih (n + 1)]
      apply List.map_congr_left
      intro i hi
      have hmem := List.mem_of_mem_filter hi
      rw [List.mem_range'] at hmem
      obtain ⟨k, -, hk⟩ := hmem
      have h1 : i - n = (i - (n + 1)) + 1 := by omega
      rw [h1, List.getD_cons_succ]
    · rw [show List.filter (fun q : ℕ × α => p q.1) ((n, a) :: List.enumFrom (n + 1) t)
            = List.filter (fun q : ℕ × α => p q.1) (List.enumFrom (n + 1) t)
          from List.filter_cons_of_neg hp,
        show List.filter p (n :: List.range' (n + 1) t.length)
            = List.filter p (List.range' (n + 1) t.length)
          from List.filter_cons_of_neg hp,
        ih (n + 1)]
      apply List.map_congr_left
      intro i hi
      have hmem := List.mem_of_mem_filter hi
      rw [List.mem_range'] at hmem
      obtain ⟨k, -, hk⟩ := hmem
      have h1 : i - n = (i - (n + 1)) + 1 := by omega
      rw [h1, List.getD_cons_succ]

/-- `enum` version of `filter_enumFrom_map_snd`. -/
theorem filter_enum_map_snd {α : Type} (d : α) (p : ℕ → Bool) (l : List α) :
    (l.enum.filter (fun q => p q.1)).map Prod.snd
      = ((List.range l.length).filter p).map (fun i => l.getD i d) := by
  have h := filter_enumFrom_map_snd d p l 0
  rw [List.enum_eq_enumFrom, List.range_eq_range']
  simpa using h

/-- Unfolding of the pipeline in the completed case. -/
theorem process_eq_completed {lines : List String} {st : Structure} {m : ℕ}
    (h : read_xyz lines = some st)
    (hm : find_metal_center st.elements st.coords = some m)
    (hp : ¬ (find_CO_pairs st.elements st.coords (some m)).length < 2) :
    process_xyz_file lines =
      Outcome.completed
        ((survivors st (find_CO_pairs st.elements st.coords (some m))).map (fun p => p.2.1))
        ((survivors st (find_CO_pairs st.elements st.coords (some m))).map (fun p => p.2.2))
        (write_xyz
          ((survivors st (find_CO_pairs st.elements st.coords (some m))).map (fun p => p.2.1))
          ((survivors st (find_CO_pairs st.elements st.coords (some m))).map (fun p => p.2.2))
          st.comment st.extra_lines) := by
  have hne : ¬ st.elements.length = 0 := by
    have h2 : find_CO_pairs st.elements st.coords (some m) ≠ [] := by
      intro he
      rw [he] at hp
      simp at hp
    obtain ⟨p, hmem⟩ := List.exists_mem_of_ne_nil _ h2
    have := length_pos_of_mem_find_CO_pairs hmem
    omega
  simp only [process_xyz_file, h, if_neg hne, hm, if_neg hp]

/-- The surviving element labels, via index filtering over the range. -/
theorem survivors_map_elements {st : Structure} (pairs : List (ℕ × ℕ))
    (hlen : st.coords.length = st.elements.length) :
    (survivors st pairs).map (fun p => p.2.1)
      = ((List.range st.elements.length).filter
          (fun i => decide (i ∉ delete_indices (pairs.take 2)))).map
          (fun i => st.elements.getD i "") := by
  have h1 : (survivors st pairs).map (fun p => p.2.1)
      = ((survivors st pairs).map Prod.snd).map Prod.fst := by
    rw [List.map_map]
    rfl
  have hzl : (st.elements.zip st.coords).length = st.elements.length := by
    rw [List.length_zip, hlen, min_self]
  rw [h1, survivors,
    show ((st.elements.zip st.coords).enum.filter
          (fun p => decide (p.1 ∉ delete_indices (pairs.take 2)))).map Prod.snd
        = ((List.range (st.elements.zip st.coords).length).filter
            (fun i => decide (i ∉ delete_indices (pairs.take 2)))).map
            (fun i => (st.elements.zip st.coords).getD i ("", pz))
      from filter_enum_map_snd ("", pz)
        (fun i => decide (i ∉ delete_indices (pairs.take 2))) _,
    hzl, List.map_map]
  apply List.map_congr_left
  intro i hi
  have hir : i < st.elements.length := by
    have := List.mem_of_mem_filter hi
    simpa [List.mem_range] using this
  simp only [Function.comp]
  rw [getD_zip "" pz hir (by omega)]

/-- The surviving coordinates, via index filtering over the range. -/
theorem survivors_map_coords {st : Structure} (pairs : List (ℕ × ℕ))
    (hlen : st.coords.length = st.elements.length) :
    (survivors st pairs).map (fun p => p.2.2)
      = ((List.range st.elements.length).filter
          (fun i => decide (i ∉ delete_indices (pairs.take 2)))).map
          (fun i => st.coords.getD i pz) := by
  have h1 : (survivors st pairs).map (fun p => p.2.2)
      = ((survivors st pairs).map Prod.snd).map Prod.snd := by
    rw [List.map_map]
    rfl
  have hzl : (st.elements.zip st.coords).length = st.elements.length := by
    rw [List.length_zip, hlen, min_self]
  rw [h1, survivors,
    show ((st.elements.zip st.coords).enum.filter
          (fun p => decide (p.1 ∉ delete_indices (pairs.take 2)))).map Prod.snd
        = ((List.range (st.elements.zip st.coords).length).filter
            (fun i => decide (i ∉ delete_indices (pairs.take 2)))).map
            (fun i => (st.elements.zip st.coords).getD i ("", pz))
      from filter_enum_map_snd ("", pz)
        (fun i => decide (i ∉ delete_indices (pairs.take 2))) _,
    hzl, List.map_map]
  apply List.map_congr_left
  intro i hi
  have hir : i < st.elements.length := by
    have := List.mem_of_mem_filter hi
    simpa [List.mem_range] using this
  simp only [Function.comp]
  rw [getD_zip "" pz hir (by omega)]

/-- Counting survivors: filtering the index range by a deletion set of
in-range indices removes exactly the size of the set. -/
theorem length_filter_range_not_mem : ∀ (n : ℕ) (S : Finset ℕ),
    (∀ i ∈ S, i < n) →
    ((List.range n).filter (fun i => decide (i ∉ S))).length = n - S.card := by
  intro n
  induction n with
  | zero =>
    intro S hS
    have hemp : S = ∅ :=
      Finset.eq_empty_of_forall_not_mem (fun i hi => absurd (hS i hi) (by omega))
    simp [hemp]
  | succ n ih =>
    intro S hS
    have hsub : S ⊆ Finset.range (n + 1) := fun i hi => Finset.mem_range.mpr (hS i hi)
    have hcard : S.card ≤ n + 1 := by
      have := Finset.card_le_card hsub
      simpa using this
    have hS' : ∀ i ∈ S.erase n, i < n := by
      intro i hi
      rw [Finset.mem_erase] at hi
      have := hS i hi.2
      rcases Nat.lt_succ_iff_lt_or_eq.mp this with h | h
      · exact h
      · exact absurd h hi.1
    have hfc : (List.range n).filter (fun i => decide (i ∉ S))
        = (List.range n).filter (fun i => decide (i ∉ S.erase n)) := by
      apply List.filter_congr
      intro i hi
      rw [List.mem_range] at hi
      have hne : i ≠ n := by omega
      simp [Finset.mem_erase, hne]
    rw [List.range_succ, List.filter_append, List.length_append, hfc,
      ih (S.erase n) hS']
    by_cases hn : n ∈ S
    · have h0 : (List.filter (fun i => decide (i ∉ S)) [n]).length = 0 := by
        simp [hn]
      rw [h0]
      have hc : (S.erase n).card = S.card - 1 := Finset.card_erase_of_mem hn
      have hpos : 0 < S.card := Finset.card_pos.mpr ⟨n, hn⟩
      omega
    · have h1 : (List.filter (fun i => decide (i ∉ S)) [n]).length = 1 := by
        simp [hn]
      have hsub2 : S ⊆ Finset.range n := by
        intro i hi
        rw [Finset.mem_range]
        have hlt := hS i hi
        have hne : i ≠ n := fun he => hn (he ▸ hi)
        omega
      have hcard2 : S.card ≤ n := by
        have := Finset.card_le_card hsub2
        simpa using this
      rw [h1, Finset.erase_eq_of_not_mem hn]
      omega

/-- The surviving element labels form a subsequence of the input labels. -/
theorem survivors_elements_sublist {st : Structure} {pairs : List (ℕ × ℕ)}
    (hlen : st.coords.length = st.elements.length) :
    List.Sublist ((survivors st pairs).map (fun p => p.2.1)) st.elements := by
  have h1 : List.Sublist (survivors st pairs) (st.elements.zip st.coords).enum :=
    List.filter_sublist _
  have h2 := h1.map Prod.snd
  rw [List.enum_eq_enumFrom, List.enumFrom_map_snd] at h2
  have h3 := h2.map Prod.fst
  rw [List.map_fst_zip _ _ (le_of_eq hlen.symm)] at h3
  have h4 : (survivors st pairs).map (fun p => p.2.1)
      = ((survivors st pairs).map Prod.snd).map Prod.fst := by
    rw [List.map_map]
    rfl
  rw [h4]
  exact h3

/-- The surviving coordinates form a subsequence of the input coordinates. -/
theorem survivors_coords_sublist {st : Structure} {pairs : List (ℕ × ℕ)}
    (hlen : st.coords.length = st.elements.length) :
    List.Sublist ((survivors st pairs).map (fun p => p.2.2)) st.coords := by
  have h1 : List.Sublist (survivors st pairs) (st.elements.zip st.coords).enum :=
    List.filter_sublist _
  have h2 := h1.map Prod.snd
  rw [List.enum_eq_enumFrom, List.enumFrom_map_snd] at h2
  have h3 := h2.map Prod.snd
  rw [List.map_snd_zip _ _ (le_of_eq hlen)] at h3
  have h4 : (survivors st pairs).map (fun p => p.2.2)
      = ((survivors st pairs).map Prod.snd).map Prod.snd := by
    rw [List.map_map]
    rfl
  rw [h4]
  exact h3

/-! ## Claims about the per-file pipeline -/

/-- C5: when the Ligand Detector yields fewer than 2 CO pairs, the pipeline
ends in the warning outcome carrying the pair count, and no file is written
(no `completed` outcome). -/
theorem C5_insufficient_ligands (lines : List String) (st : Structure) (m : ℕ)
    (h : read_xyz lines = some st)
    (hne : st.elements.length ≠ 0)
    (hm : find_metal_center st.elements st.coords = some m)
    (hp : (find_CO_pairs st.elements st.coords (some m)).length < 2) :
    process_xyz_file lines =
      Outcome.fewPairs (find_CO_pairs st.elements st.coords (some m)).length ∧
    ∀ a b w, process_xyz_file lines ≠ Outcome.completed a b w := by
  have h1 : process_xyz_file lines =
      Outcome.fewPairs (find_CO_pairs st.elements st.coords (some m)).length := by
    simp only [process_xyz_file, h, if_neg hne, hm, if_pos hp]
  refine ⟨h1, ?_⟩
  intro a b w
  rw [h1]
  simp

/-- C5 witness: a structure with a single CO ligand ends in the warning
outcome and nothing is written. -/
theorem C5_insufficient_ligands_witness :
    process_xyz_file
        ["4", "x", "Ir 0.0 0.0 0.0", "C 1.9 0.0 0.0", "O 3.05 0.0 0.0",
          "H 9.0 9.0 9.0"] =
      Outcome.fewPairs
        (find_CO_pairs ["Ir", "C", "O", "H"]
          [(0, 0, 0), (19/10, 0, 0), (61/20, 0, 0), (9, 9, 9)] (some 0)).length ∧
    ∀ a b w,
      process_xyz_file
          ["4", "x", "Ir 0.0 0.0 0.0", "C 1.9 0.0 0.0", "O 3.05 0.0 0.0",
            "H 9.0 9.0 9.0"] ≠
        Outcome.completed a b w :=
  C5_insufficient_ligands
    ["4", "x", "Ir 0.0 0.0 0.0", "C 1.9 0.0 0.0", "O 3.05 0.0 0.0", "H 9.0 9.0 9.0"]
    ⟨["Ir", "C", "O", "H"], [(0, 0, 0), (19/10, 0, 0), (61/20, 0, 0), (9, 9, 9)],
      "x", []⟩
    0 (by with_unfolding_all decide) (by decide) (by decide)
    (by with_unfolding_all decide)

/-- C10: a file that parses to zero atoms is skipped with the empty-atoms
outcome before any metal lookup: the result is not the no-metal outcome even
though the empty structure has no metal either, and nothing is written. -/
theorem C10_empty_skip (lines : List String) (st : Structure)
    (h : read_xyz lines = some st) (he : st.elements = []) :
    process_xyz_file lines = Outcome.emptyAtoms ∧
    find_metal_center st.elements st.coords = none ∧
    process_xyz_file lines ≠ Outcome.noMetal ∧
    ∀ a b w, process_xyz_file lines ≠ Outcome.completed a b w := by
  have hlen : st.elements.length = 0 := by simp [he]
  have h1 : process_xyz_file lines = Outcome.emptyAtoms := by
    simp only [process_xyz_file, h, if_pos hlen]
  refine ⟨h1, ?_, ?_, ?_⟩
  · simp [find_metal_center, he]
  · rw [h1]
    simp
  · intro a b w
    rw [h1]
    simp

/-- C10 witness: the two-line file declaring zero atoms. -/
theorem C10_empty_skip_witness :
    process_xyz_file ["0", "c"] = Outcome.emptyAtoms ∧
    find_metal_center ([] : List String) ([] : List Point) = none ∧
    process_xyz_file ["0", "c"] ≠ Outcome.noMetal ∧
    ∀ a b w, process_xyz_file ["0", "c"] ≠ Outcome.completed a b w :=
  C10_empty_skip ["0", "c"] ⟨[], [], "c", []⟩ (by decide) (by decide)

/-- C4: when at least 2 pairs are detected, the completed outcome carries
exactly the atoms whose index is not in the union of the first two pairs'
indices (looked up over the filtered index range), and the surviving
elements and coordinates are subsequences of the input (relative order is
preserved). -/
theorem C4_retention (lines : List String) (st : Structure) (m : ℕ)
    (h : read_xyz lines = some st)
    (hm : find_metal_center st.elements st.coords = some m)
    (hp : 2 ≤ (find_CO_pairs st.elements st.coords (some m)).length) :
    ∃ w,
      process_xyz_file lines =
        Outcome.completed
          (((List.range st.elements.length).filter
              (fun i => decide (i ∉ delete_indices
                ((find_CO_pairs st.elements st.coords (some m)).take 2)))).map
            (fun i => st.elements.getD i ""))
          (((List.range st.elements.length).filter
              (fun i => decide (i ∉ delete_indices
                ((find_CO_pairs st.elements st.coords (some m)).take 2)))).map
            (fun i => st.coords.getD i pz))
          w ∧
      List.Sublist
        (((List.range st.elements.length).filter
            (fun i => decide (i ∉ delete_indices
              ((find_CO_pairs st.elements st.coords (some m)).take 2)))).map
          (fun i => st.elements.getD i ""))
        st.elements ∧
      List.Sublist
        (((List.range st.elements.length).filter
            (fun i => decide (i ∉ delete_indices
              ((find_CO_pairs st.elements st.coords (some m)).take 2)))).map
          (fun i => st.coords.getD i pz))
        st.coords := by
  have hlen := read_xyz_lengths h
  have hnlt : ¬ (find_CO_pairs st.elements st.coords (some m)).length < 2 := by omega
  have heq := process_eq_completed h hm hnlt
  have he := survivors_map_elements
    (find_CO_pairs st.elements st.coords (some m)) hlen
  have hcc := survivors_map_coords
    (find_CO_pairs st.elements st.coords (some m)) hlen
  rw [he, hcc] at heq
  refine ⟨_, heq, ?_, ?_⟩
  · rw [← he]
    exact survivors_elements_sublist hlen
  · rw [← hcc]
    exact survivors_coords_sublist hlen

/-- C4 witness: the running example completes with only the metal atom
surviving. -/
theorem C4_retention_witness :
    ∃ w,
      process_xyz_file exLines =
        Outcome.completed
          (((List.range exSt.elements.length).filter
              (fun i => decide (i ∉ delete_indices
                ((find_CO_pairs exSt.elements exSt.coords (some 0)).take 2)))).map
            (fun i => exSt.elements.getD i ""))
          (((List.range exSt.elements.length).filter
              (fun i => decide (i ∉ delete_indices
                ((find_CO_pairs exSt.elements exSt.coords (some 0)).take 2)))).map
            (fun i => exSt.coords.getD i pz))
          w ∧
      List.Sublist
        (((List.range exSt.elements.length).filter
            (fun i => decide (i ∉ delete_indices
              ((find_CO_pairs exSt.elements exSt.coords (some 0)).take 2)))).map
          (fun i => exSt.elements.getD i ""))
        exSt.elements ∧
      List.Sublist
        (((List.range exSt.elements.length).filter
            (fun i => decide (i ∉ delete_indices
              ((find_CO_pairs exSt.elements exSt.coords (some 0)).take 2)))).map
          (fun i => exSt.coords.getD i pz))
        exSt.coords :=
  C4_retention exLines exSt 0 (by with_unfolding_all decide) (by decide)
    (by with_unfolding_all decide)

/-- C1 counterexample: a single carbon bonded to two oxygens yields two
detected pairs whose index union has size 3, so the written structure has
4 - 3 = 1 atom, not 4 - 4 = 0 as the claim requires. -/
theorem C1_counterexample :
    (find_CO_pairs ["Ir", "C", "O", "O"]
        [(0, 0, 0), (19/10, 0, 0), (61/20, 0, 0), (3/4, 0, 0)] (some 0)).length = 2 ∧
    process_xyz_file
        ["4", "c", "Ir 0.0 0.0 0.0", "C 1.9 0.0 0.0", "O 3.05 0.0 0.0",
          "O 0.75 0.0 0.0"] =
      Outcome.completed ["Ir"] [(0, 0, 0)] (write_xyz ["Ir"] [(0, 0, 0)] "c" []) ∧
    (write_xyz ["Ir"] [(0, 0, 0)] "c" []).n = 1 ∧ (1 : ℕ) ≠ 4 - 4 :=
  ⟨by with_unfolding_all decide, by with_unfolding_all decide,
    by with_unfolding_all decide, by decide⟩

/-- C1 (amended): when the first two detected pairs involve four pairwise
distinct atom indices, the written output atom count equals the input atom
count minus 4.  (When the two pairs share an atom only three indices are
deleted, as the counterexample shows.) -/
theorem C1_deletion_count (lines : List String) (st : Structure) (m : ℕ)
    (p1 p2 : ℕ × ℕ) (rest : List (ℕ × ℕ))
    (h : read_xyz lines = some st)
    (hm : find_metal_center st.elements st.coords = some m)
    (hp : find_CO_pairs st.elements st.coords (some m) = p1 :: p2 :: rest)
    (hd : [p1.1, p1.2, p2.1, p2.2].Nodup) :
    ∃ a b w, process_xyz_file lines = Outcome.completed a b w ∧
      w.n = st.elements.length - 4 ∧ 4 ≤ st.elements.length := by
  have hlen := read_xyz_lengths h
  have hnlt : ¬ (find_CO_pairs st.elements st.coords (some m)).length < 2 := by
    rw [hp]
    simp
  have heq := process_eq_completed h hm hnlt
  have htake : (find_CO_pairs st.elements st.coords (some m)).take 2 = [p1, p2] := by
    rw [hp]
    rfl
  simp only [List.nodup_cons, List.mem_cons, List.not_mem_nil, List.mem_singleton,
    not_or, List.nodup_nil, and_true] at hd
  obtain ⟨⟨h12, h13, h14⟩, ⟨h23, h24⟩, h34⟩ := hd
  have hmem1 : p1 ∈ co_scan st.elements st.coords (some m) := by
    rw [← find_CO_pairs_eq_co_scan, hp]
    exact List.mem_cons_self _ _
  have hmem2 : p2 ∈ co_scan st.elements st.coords (some m) := by
    rw [← find_CO_pairs_eq_co_scan, hp]
    simp
  have hl1 := co_scan_labels hmem1
  have hl2 := co_scan_labels hmem2
  have hbound : ∀ i ∈ delete_indices [p1, p2], i < st.elements.length := by
    intro i hi
    rw [mem_delete_indices] at hi
    obtain ⟨p, hpm, hieq⟩ := hi
    simp only [List.mem_cons, List.not_mem_nil, or_false] at hpm
    rcases hpm with rfl | rfl
    · rcases hieq with rfl | rfl
      · exact hl1.1
      · exact hl1.2.1
    · rcases hieq with rfl | rfl
      · exact hl2.1
      · exact hl2.2.1
  have hSeq : delete_indices [p1, p2]
      = insert p2.2 (insert p2.1 (insert p1.2 (insert p1.1 (∅ : Finset ℕ)))) := by
    rfl
  have hcard : (delete_indices [p1, p2]).card = 4 := by
    rw [hSeq,
      Finset.card_insert_of_not_mem (by
        simp only [Finset.mem_insert, Finset.not_mem_empty, or_false]
        omega),
      Finset.card_insert_of_not_mem (by
        simp only [Finset.mem_insert, Finset.not_mem_empty, or_false]
        omega),
      Finset.card_insert_of_not_mem (by
        simp only [Finset.mem_insert, Finset.not_mem_empty, or_false]
        omega)]
    simp
  have hn4 : 4 ≤ st.elements.length := by
    have hsub : delete_indices [p1, p2] ⊆ Finset.range st.elements.length :=
      fun i hi => Finset.mem_range.mpr (hbound i hi)
    have := Finset.card_le_card hsub
    rw [hcard, Finset.card_range] at this
    exact this
  refine ⟨_, _, _, heq, ?_, hn4⟩
  show ((survivors st (find_CO_pairs st.elements st.coords (some m))).map
    (fun p => p.2.1)).length = st.elements.length - 4
  rw [survivors_map_elements _ hlen, List.length_map, htake,
    length_filter_range_not_mem _ _ hbound, hcard]

/-- C1 witness for the amended claim: the running example has five atoms,
two disjoint pairs, and the written file has 5 - 4 = 1 atom. -/
theorem C1_deletion_count_witness :
    ∃ a b w, process_xyz_file exLines = Outcome.completed a b w ∧
      w.n = 5 - 4 ∧ 4 ≤ 5 :=
  C1_deletion_count exLines exSt 0 (1, 2) (3, 4) []
    (by with_unfolding_all decide) (by decide) (by with_unfolding_all decide)
    (by decide)

/-- C8: in every completed run, each deleted index is labelled `"C"` or
`"O"`, those labels are not in the metal whitelist, the located metal's
label is whitelisted, and the metal atom's label survives into the written
element list. -/
theorem C8_metal_survives (lines : List String) (st : Structure) (m : ℕ)
    (a : List String) (b : List Point) (w : Written)
    (h : read_xyz lines = some st)
    (hm : find_metal_center st.elements st.coords = some m)
    (hc : process_xyz_file lines = Outcome.completed a b w) :
    (∀ i ∈ delete_indices ((find_CO_pairs st.elements st.coords (some m)).take 2),
        st.elements.getD i "" = "C" ∨ st.elements.getD i "" = "O") ∧
    ("C" : String) ∉ CENTER_METALS ∧ ("O" : String) ∉ CENTER_METALS ∧
    st.elements.getD m "" ∈ CENTER_METALS ∧
    st.elements.getD m "" ∈ a := by
  have hlen := read_xyz_lengths h
  have hmm := find_metal_center_some hm
  have hne : st.elements.length ≠ 0 := by
    intro h0
    have hthis : process_xyz_file lines = Outcome.emptyAtoms := by
      simp only [process_xyz_file, h, if_pos h0]
    rw [hthis] at hc
    exact absurd hc (by simp)
  have hnlt : ¬ (find_CO_pairs st.elements st.coords (some m)).length < 2 := by
    intro hlt
    have hthis : process_xyz_file lines =
        Outcome.fewPairs (find_CO_pairs st.elements st.coords (some m)).length := by
      simp only [process_xyz_file, h, if_neg hne, hm, if_pos hlt]
    rw [hthis] at hc
    exact absurd hc (by simp)
  have heq := process_eq_completed h hm hnlt
  rw [heq] at hc
  simp only [Outcome.completed.injEq] at hc
  have hdel : ∀ i ∈ delete_indices
      ((find_CO_pairs st.elements st.coords (some m)).take 2),
      st.elements.getD i "" = "C" ∨ st.elements.getD i "" = "O" := by
    intro i hi
    rw [mem_delete_indices] at hi
    obtain ⟨p, hpm, hieq⟩ := hi
    have hpairs : p ∈ co_scan st.elements st.coords (some m) := by
      rw [← find_CO_pairs_eq_co_scan]
      exact (List.take_sublist 2 _).mem hpm
    have hl := co_scan_labels hpairs
    rcases hieq with rfl | rfl
    · exact Or.inl hl.2.2.1
    · exact Or.inr hl.2.2.2
  have hmnot : m ∉ delete_indices
      ((find_CO_pairs st.elements st.coords (some m)).take 2) := by
    intro hmemS
    rcases hdel m hmemS with hC | hO
    · have hx := hmm.2
      rw [hC] at hx
      exact absurd hx (by decide)
    · have hx := hmm.2
      rw [hO] at hx
      exact absurd hx (by decide)
  have hmem_a : st.elements.getD m "" ∈ a := by
    rw [← hc.1, survivors_map_elements _ hlen]
    refine List.mem_map.mpr ⟨m, ?_, rfl⟩
    refine List.mem_filter.mpr ⟨List.mem_range.mpr hmm.1, ?_⟩
    simpa using hmnot
  exact ⟨hdel, by decide, by decide, hmm.2, hmem_a⟩

/-- C8 witness: in the running example the deleted indices are all C or O
and the iridium label survives into the output. -/
theorem C8_metal_survives_witness :
    (∀ i ∈ delete_indices ((find_CO_pairs exSt.elements exSt.coords (some 0)).take 2),
        exSt.elements.getD i "" = "C" ∨ exSt.elements.getD i "" = "O") ∧
    ("C" : String) ∉ CENTER_METALS ∧ ("O" : String) ∉ CENTER_METALS ∧
    exSt.elements.getD 0 "" ∈ CENTER_METALS ∧
    exSt.elements.getD 0 "" ∈ ["Ir"] :=
  C8_metal_survives exLines exSt 0 ["Ir"] [(0, 0, 0)]
    (write_xyz ["Ir"] [(0, 0, 0)] "c" [])
    (by with_unfolding_all decide) (by decide) (by with_unfolding_all decide)

/-! ## Round-trip claims -/

/-- Rounding to 6 decimals moves a value by at most half an ulp
(`5 * 10⁻⁷`). -/
theorem abs_round6_sub_le (q : ℚ) : |round6 q - q| ≤ 1 / 2000000 := by
  have h := abs_sub_round (q * 1000000)
  rw [abs_sub_comm] at h
  have h6 : round6 q - q = ((round (q * 1000000) : ℚ) - q * 1000000) / 1000000 := by
    rw [round6]
    ring
  rw [h6, abs_div, abs_of_pos (show (0 : ℚ) < 1000000 by norm_num),
    div_le_iff₀ (show (0 : ℚ) < 1000000 by norm_num),
    show (1 : ℚ) / 2000000 * 1000000 = 1 / 2 by norm_num]
  exact h

/-- Members of `(l.map f).zip l` pair `f x` with `x`. -/
theorem fst_eq_of_mem_zip_map {α β : Type} (f : α → β) :
    ∀ {l : List α} {y : β × α}, y ∈ (l.map f).zip l → y.1 = f y.2 := by
  intro l
  induction l with
  | nil =>
    intro y hy
    simp at hy
  | cons a t ih =>
    intro y hy
    rw [List.map_cons, List.zip_cons_cons, List.mem_cons] at hy
    rcases hy with rfl | hy
    · rfl
    · exact ih hy

/-- C7: serializing a parsed structure without deletions reproduces the atom
count, the element order, the comment, the trailing lines verbatim, and each
written coordinate is within `5 * 10⁻⁷` (6-decimal formatting precision) of
the parsed coordinate. -/
theorem C7_roundtrip (lines : List String) (st : Structure)
    (h : read_xyz lines = some st) :
    (write_xyz st.elements st.coords st.comment st.extra_lines).n
        = st.elements.length ∧
    (write_xyz st.elements st.coords st.comment st.extra_lines).atoms.map Prod.fst
        = st.elements ∧
    (write_xyz st.elements st.coords st.comment st.extra_lines).comment
        = st.comment ∧
    (write_xyz st.elements st.coords st.comment st.extra_lines).extras
        = st.extra_lines ∧
    ∀ q ∈ (write_xyz st.elements st.coords st.comment st.extra_lines).atoms.zip
        (st.elements.zip st.coords),
      q.1.1 = q.2.1 ∧
      |q.1.2.1 - q.2.2.1| ≤ 1 / 2000000 ∧
      |q.1.2.2.1 - q.2.2.2.1| ≤ 1 / 2000000 ∧
      |q.1.2.2.2 - q.2.2.2.2| ≤ 1 / 2000000 := by
  have hlen := read_xyz_lengths h
  refine ⟨rfl, ?_, rfl, rfl, ?_⟩
  · show ((st.elements.zip st.coords).map
        (fun p => (p.1, (round6 p.2.1, round6 p.2.2.1, round6 p.2.2.2)))).map Prod.fst
      = st.elements
    rw [List.map_map]
    rw [show (Prod.fst ∘ fun p : String × Point =>
        (p.1, (round6 p.2.1, round6 p.2.2.1, round6 p.2.2.2))) = Prod.fst from rfl]
    exact List.map_fst_zip _ _ (le_of_eq hlen.symm)
  · intro q hq
    have hfst := fst_eq_of_mem_zip_map
      (fun p : String × Point => (p.1, (round6 p.2.1, round6 p.2.2.1, round6 p.2.2.2)))
      hq
    refine ⟨by rw [hfst], ?_, ?_, ?_⟩
    · rw [hfst]
      exact abs_round6_sub_le _
    · rw [hfst]
      exact abs_round6_sub_le _
    · rw [hfst]
      exact abs_round6_sub_le _

set_option maxRecDepth 2000 in
/-- C7 witness: the round-trip properties instantiated at a concrete parsed
file with a trailing line. -/
theorem C7_roundtrip_witness :
    (write_xyz c7St.elements c7St.coords c7St.comment c7St.extra_lines).n
        = c7St.elements.length ∧
    (write_xyz c7St.elements c7St.coords c7St.comment c7St.extra_lines).atoms.map
        Prod.fst = c7St.elements ∧
    (write_xyz c7St.elements c7St.coords c7St.comment c7St.extra_lines).comment
        = c7St.comment ∧
    (write_xyz c7St.elements c7St.coords c7St.comment c7St.extra_lines).extras
        = c7St.extra_lines ∧
    ∀ q ∈ (write_xyz c7St.elements c7St.coords c7St.comment c7St.extra_lines).atoms.zip
        (c7St.elements.zip c7St.coords),
      q.1.1 = q.2.1 ∧
      |q.1.2.1 - q.2.2.1| ≤ 1 / 2000000 ∧
      |q.1.2.2.1 - q.2.2.2.1| ≤ 1 / 2000000 ∧
      |q.1.2.2.2 - q.2.2.2.2| ≤ 1 / 2000000 :=
  C7_roundtrip c7Lines c7St (by with_unfolding_all decide)

end XyzRemoveCO
